import Mathlib

/-!
# Record stream sorter: embedding of `record_stream.cpp`

The program pulls one record per reader per round and inserts every pulled
record into `sorted_records`, choosing between a tail append, a binary search
in a window of `max_distance` elements at the tail, and a binary search over
the whole vector.

Conventions of the embedding:
* `uint64_t` timestamps are natural numbers, arithmetic on them is taken
  modulo `2^64`; `int64_t` values are integers obtained by `to_int64`;
* iterators are indices into a list (`begin()` is `0`, `end()` is the length);
* a `unique_ptr<Record>` that is not null is a `Record`, `nullptr` is `none`;
* `std::lower_bound` and `std::upper_bound` are the halving loops of the
  standard library, run on index ranges.
-/

namespace RecordStream

/-! ## Machine integers -/

/-- Two to the 64: the modulus of `uint64_t` arithmetic. -/
def U64_MOD : Nat := 18446744073709551616

/-- Two to the 63: the first `uint64_t` value whose `int64_t` reading is negative. -/
def I64_LIMIT : Nat := 9223372036854775808

/-- Subtraction of two `uint64_t` values: the difference modulo `2^64`. -/
def sub_u64 (a b : Nat) : Nat :=
  (a % U64_MOD + (U64_MOD - b % U64_MOD)) % U64_MOD

/-- Conversion of a `uint64_t` value to `int64_t` (two's complement reading). -/
def to_int64 (x : Nat) : Int :=
  if x % U64_MOD < I64_LIMIT then ((x % U64_MOD : Nat) : Int)
  else ((x % U64_MOD : Nat) : Int) - (U64_MOD : Int)

/-- The function `abs` on `int64_t` (the overload `std::abs(long)`): the
magnitude, read back as `int64_t`; the magnitude of the least value does not
fit and wraps to itself. -/
def abs_int64 (d : Int) : Int := to_int64 d.natAbs

/-! ## Record and Reader -/

/-- The struct `Record`: one private field, the timestamp, a `uint64_t` (a
natural number below `2^64`). -/
structure Record where
  m_timestamp : Nat
deriving DecidableEq, Repr

/-- The accessor `Record::timestamp`. -/
def Record.timestamp (r : Record) : Nat := r.m_timestamp

/-- The setter `Record::set_timestamp`. -/
def Record.set_timestamp (_r : Record) (timestamp : Nat) : Record :=
  { m_timestamp := timestamp % U64_MOD }

/-- The struct `Reader`: the backlog and the iterator into it, as an index. -/
structure Reader where
  m_records : List Record
  m_iterator : Nat
deriving DecidableEq, Repr

/-- The constructor `Reader::Reader`: empty backlog, iterator at `begin()`. -/
def Reader.new : Reader := { m_records := [], m_iterator := 0 }

/-- The method `Reader::next_record`: when the iterator is not at `end()`, hand
out the record under it and advance; otherwise `nullptr`. -/
def Reader.next_record (rd : Reader) : Option Record × Reader :=
  if rd.m_iterator ≠ rd.m_records.length then
    (rd.m_records[rd.m_iterator]?, { rd with m_iterator := rd.m_iterator + 1 })
  else
    (none, rd)

/-- The method `Reader::feed`: take over the records, iterator at `begin()`. -/
def Reader.feed (_rd : Reader) (records : List Record) : Reader :=
  { m_records := records, m_iterator := 0 }

/-! ## The comparison and the two searches -/

/-- The lambda `cmp_records`: strict order on timestamps. -/
def cmp_records (r1 r2 : Record) : Bool := decide (r1.timestamp < r2.timestamp)

/-- The element under an iterator `i` of the vector `v`. Every read the
searches make is inside the vector; outside it the value is a zero record. -/
def deref (v : List Record) (i : Nat) : Record := v.getD i { m_timestamp := 0 }

/-- The loop of `std::lower_bound`: `len` elements from `first` remain; the
first argument bounds the number of iterations (`len` halves each time, so
`len` itself is enough). -/
def lower_bound_loop (v : List Record) (val : Record) : Nat → Nat → Nat → Nat
  | 0, first, _ => first
  | fuel + 1, first, len =>
    if 0 < len then
      let half := len / 2
      let middle := first + half
      if cmp_records (deref v middle) val then
        lower_bound_loop v val fuel (middle + 1) (len - half - 1)
      else
        lower_bound_loop v val fuel first half
    else first

/-- The function `std::lower_bound(first, last, val, cmp_records)`. -/
def lower_bound (v : List Record) (first last : Nat) (val : Record) : Nat :=
  lower_bound_loop v val (last - first) first (last - first)

/-- The loop of `std::upper_bound`, as `lower_bound_loop` with the test
`cmp_records val *middle` deciding to keep the left half. -/
def upper_bound_loop (v : List Record) (val : Record) : Nat → Nat → Nat → Nat
  | 0, first, _ => first
  | fuel + 1, first, len =>
    if 0 < len then
      let half := len / 2
      let middle := first + half
      if cmp_records val (deref v middle) then
        upper_bound_loop v val fuel first half
      else
        upper_bound_loop v val fuel (middle + 1) (len - half - 1)
    else first

/-- The function `std::upper_bound(first, last, val, cmp_records)`. -/
def upper_bound (v : List Record) (first last : Nat) (val : Record) : Nat :=
  upper_bound_loop v val (last - first) first (last - first)

/-- The method `vector::insert(position, record)`. -/
def vector_insert (v : List Record) (position : Nat) (record : Record) : List Record :=
  v.take position ++ record :: v.drop position

/-! ## The state of `main` and the insertion step -/

/-- The variables of `main` that live across rounds. The variable
`max_distance_timestamp` is written before every read, so it is local to the
insertion step; `tmp_vec_records` and `no_records` are local to a round. -/
structure State where
  readers : List Reader
  sorted_records : List Record
  max_distance : Nat
  diff_timestamp : Int
deriving DecidableEq, Repr

/-- The body of the second `for` loop of `main` (lines 118-159) for one record.
The vector never reallocates (`reserve`, line 101), so after `insert` the
iterator `position_to_insert` still stands at the inserted element and
`end() - position_to_insert` is the new length minus the insertion index. -/
def insert_record (st : State) (record : Record) : State :=
  let diff_timestamp : Int :=
    match st.sorted_records.getLast? with
    | some back => to_int64 (sub_u64 record.timestamp back.timestamp)
    | none => st.diff_timestamp
  if 0 ≤ diff_timestamp then
    { st with sorted_records := st.sorted_records ++ [record],
              diff_timestamp := diff_timestamp }
  else
    let size := st.sorted_records.length
    let max_distance_timestamp : Int :=
      to_int64 (deref st.sorted_records (size - st.max_distance)).timestamp
    let position_to_insert : Nat :=
      if diff_timestamp < 0 ∧ abs_int64 diff_timestamp ≤ max_distance_timestamp then
        upper_bound st.sorted_records (size - st.max_distance) size record
      else
        lower_bound st.sorted_records 0 size record
    let sorted_records := vector_insert st.sorted_records position_to_insert record
    let current_record_distance := sorted_records.length - position_to_insert
    { st with sorted_records := sorted_records,
              max_distance := max st.max_distance current_record_distance,
              diff_timestamp := diff_timestamp }

/-! ## The round loop -/

/-- The first `for` loop of `main` (lines 109-116): visit the readers in order,
carrying the flag `no_records` and the vector `tmp_vec_records`. -/
def take_records : List Reader → Bool → List Record → Bool × List Record × List Reader
  | [], no_records, tmp_vec_records => (no_records, tmp_vec_records, [])
  | reader :: rest, no_records, tmp_vec_records =>
    match reader.next_record with
    | (some record, reader1) =>
      let out := take_records rest false (tmp_vec_records ++ [record])
      (out.1, out.2.1, reader1 :: out.2.2)
    | (none, reader1) =>
      let out := take_records rest no_records tmp_vec_records
      (out.1, out.2.1, reader1 :: out.2.2)

/-- One pass of the body of the `do` loop (lines 105-161): the flag
`no_records`, the number of records pulled in this round, the state after. -/
def round (st : State) : Bool × Nat × State :=
  let out := take_records st.readers true []
  (out.1, out.2.1.length,
    out.2.1.foldl insert_record { st with readers := out.2.2 })

/-- The `do ... while (!no_records)` loop. The first argument bounds the number
of rounds, `none` meaning the bound was reached before the loop ended. The list
carried along records how many records each round pulled, in round order. -/
def run_rounds : Nat → State → List Nat → Option (State × List Nat)
  | 0, _, _ => none
  | fuel + 1, st, pulled =>
    let out := round st
    if out.1 then some (out.2.2, pulled ++ [out.2.1])
    else run_rounds fuel out.2.2 (pulled ++ [out.2.1])

/-- The state of `main` when the loop starts: one fed reader per source,
`sorted_records` empty, `max_distance = 1`, `diff_timestamp = 0`. -/
def initial (sources : List (List Record)) : State :=
  { readers := sources.map (fun records => Reader.feed Reader.new records),
    sorted_records := [],
    max_distance := 1,
    diff_timestamp := 0 }

/-- Build a source from its timestamps. -/
def source (timestamps : List Nat) : List Record :=
  timestamps.map (fun t => { m_timestamp := t })

/-- The timestamps of a sequence of records. -/
def timestamps (v : List Record) : List Nat := v.map Record.timestamp

/-- The engine: run the loop from the initial state. -/
def engine (fuel : Nat) (sources : List (List Record)) : Option (State × List Nat) :=
  run_rounds fuel (initial sources) []

/-! ## Round-by-round description of a run -/

/-- The length of the longest source, `0` when there is none. -/
def max_len (sources : List (List Record)) : Nat :=
  (sources.map List.length).foldr max 0

/-- The records of round `j`: the `j`-th record of each source that has one,
in source order. -/
def batch (sources : List (List Record)) (j : Nat) : List Record :=
  sources.filterMap (fun records => records[j]?)

/-- The readers after `j` rounds: each iterator has advanced `j` times or
stopped at the end of its backlog. -/
def readers_at (sources : List (List Record)) (j : Nat) : List Reader :=
  sources.map (fun records => { m_records := records, m_iterator := min j records.length })

/-- The records in the order the engine meets them: round by round, and inside
a round in source order. -/
def arrival (sources : List (List Record)) : List Record :=
  (List.range (max_len sources)).flatMap (batch sources)

/-- The number of records pulled in each of the rounds `0, ..., max_len`. -/
def pulls (sources : List (List Record)) : List Nat :=
  (List.range (max_len sources + 1)).map (fun j => (batch sources j).length)

/-- Replace the readers of a state. -/
def set_readers (st : State) (readers : List Reader) : State :=
  { st with readers := readers }

/-- The state in which the loop ends. -/
def final (sources : List (List Record)) : State :=
  set_readers ((arrival sources).foldl insert_record (initial sources))
    (readers_at sources (max_len sources + 1))

/-- The state of a reader after `k` calls of `next_record`. -/
def after_pulls : Nat → Reader → Reader
  | 0, rd => rd
  | k + 1, rd => after_pulls k rd.next_record.2

/-- What the `k`-th call of `next_record` (counted from `0`) returns on a reader
fed with `backlog`. -/
def kth_pull (backlog : List Record) (k : Nat) : Option Record :=
  (after_pulls k (Reader.feed Reader.new backlog)).next_record.1

/-- What a run leaves behind for its caller: the merged sequence, the value of
`max_distance`, and the number of records pulled in each round. -/
def outcome (out : State × List Nat) : List Record × Nat × List Nat :=
  (out.1.sorted_records, out.1.max_distance, out.2)

/-- The property of being non-decreasing by timestamp. -/
def is_sorted (v : List Record) : Prop := List.Sorted (· ≤ ·) (timestamps v)

instance (v : List Record) : Decidable (is_sorted v) := by
  unfold is_sorted; infer_instance

/-- Scenario A of the specification: three sources of three records. -/
def scenario_A : List (List Record) :=
  [source [10, 30, 50], source [20, 40, 60], source [15, 25, 35]]

/-- Scenario B of the specification: one strictly decreasing source. -/
def scenario_B : List (List Record) := [source [5, 3, 1]]

/-- Scenario C of the specification: two sources with one record each, equal timestamps. -/
def scenario_C : List (List Record) := [source [7], source [7]]

/-- One source whose last record is older than the two before it. -/
def late_record : List (List Record) := [source [10, 20, 30, 5]]

/-- Ten readers of three records with timestamps between 0 and 100, as the
harness of `main` builds them; the fourth reader starts with an old record. -/
def harness_late : List (List Record) :=
  [source [10, 50, 60], source [20, 50, 60], source [30, 50, 60], source [5, 50, 60],
   source [40, 50, 60], source [40, 50, 60], source [40, 50, 60], source [40, 50, 60],
   source [40, 50, 60], source [40, 50, 60]]

/-- Three sources, each non-decreasing. -/
def ordered_three : List (List Record) := [source [10, 20], source [10, 21], source [10, 10]]

/-- Ten readers of three records with timestamps between 0 and 100, each reader
non-decreasing. -/
def harness_ordered : List (List Record) :=
  [source [10, 20, 30], source [10, 20, 30], source [10, 20, 30], source [10, 20, 30],
   source [10, 20, 30], source [10, 20, 30], source [10, 20, 30], source [10, 20, 30],
   source [10, 21, 30], source [10, 10, 30]]

/-- A state whose merged sequence holds one record with timestamp `2^63 + 5`. -/
def wrap_state : State :=
  { readers := [], sorted_records := source [9223372036854775813],
    max_distance := 1, diff_timestamp := 0 }

/-- A state whose merged sequence is `[3, 7]`. -/
def tie_state : State :=
  { readers := [], sorted_records := source [3, 7], max_distance := 1, diff_timestamp := 0 }

/-- One source: a record with timestamp `2^63 + 5`, then a record with timestamp `1`. -/
def wrap_source : List (List Record) := [source [9223372036854775813, 1]]

/-! ## The branches of the insertion step -/

/-- The value the insertion step gives to `diff_timestamp` (lines 123-126): the
wrapped difference to the last element, or the old value when the vector is
empty. -/
def next_diff (st : State) (record : Record) : Int :=
  match st.sorted_records.getLast? with
  | some back => to_int64 (sub_u64 record.timestamp back.timestamp)
  | none => st.diff_timestamp

/-- The index of the iterator `sorted_records.end() - max_distance`. -/
def window_start (st : State) : Nat := st.sorted_records.length - st.max_distance

/-- The value the insertion step gives to `max_distance_timestamp` (lines 135-136). -/
def window_bound (st : State) : Int :=
  to_int64 (deref st.sorted_records (window_start st)).timestamp

/-- The three branches of the insertion step: the append of line 130, the
`upper_bound` search of line 143, the `lower_bound` search of line 148. -/
inductive Path where
  | append
  | bounded
  | fallback
deriving DecidableEq, Repr

/-- The branch the insertion step takes (the tests of lines 127 and 137). -/
def path_taken (st : State) (record : Record) : Path :=
  if 0 ≤ next_diff st record then Path.append
  else if next_diff st record < 0 ∧ abs_int64 (next_diff st record) ≤ window_bound st then
    Path.bounded
  else Path.fallback

/-- The index at which the insertion step places the record: the old length on
the append branch, the result of the search on the other two. -/
def insertion_index (st : State) (record : Record) : Nat :=
  match path_taken st record with
  | Path.append => st.sorted_records.length
  | Path.bounded =>
    upper_bound st.sorted_records (window_start st) st.sorted_records.length record
  | Path.fallback => lower_bound st.sorted_records 0 st.sorted_records.length record

/-- The states the engine can be in: the initial state of a run, the state after
an insertion, the state after the readers have been advanced. -/
inductive Reachable : State → Prop where
  | start (sources : List (List Record)) : Reachable (initial sources)
  | insert (st : State) (record : Record) : Reachable st → Reachable (insert_record st record)
  | pull (st : State) (readers : List Reader) : Reachable st → Reachable (set_readers st readers)

/-- The state of a run on `sources` after its first `k` insertions. -/
def after_insertions (sources : List (List Record)) (k : Nat) : State :=
  ((arrival sources).take k).foldl insert_record (initial sources)

/-- A state with merged sequence `[10, 20, 30]` and `max_distance = 1`. -/
def gate_state : State :=
  { readers := [], sorted_records := source [10, 20, 30], max_distance := 1,
    diff_timestamp := 10 }

/-- A state with merged sequence `[10, 15, 20, 30, 40]` and `max_distance = 2`,
as in scenario A before the record `25` arrives. -/
def window_state : State :=
  { readers := [], sorted_records := source [10, 15, 20, 30, 40], max_distance := 2,
    diff_timestamp := 10 }

/-- A state with merged sequence `[3, 5]` and `max_distance = 2`, as in scenario
B before the record `1` arrives. -/
def search_state : State :=
  { readers := [], sorted_records := source [3, 5], max_distance := 2,
    diff_timestamp := -2 }

/-- One source: `5, 1, 2^62, 2^63 + 5, 2`. -/
def far_source : List (List Record) :=
  [source [5, 1, 4611686018427387904, 9223372036854775813, 2]]

/-- The insertion order in the words of the specification: for the rounds
`j = 0, 1, ..., rounds - 1`, the `j`-th record of each source that has one, in
source order. -/
def round_major_order (sources : List (List Record)) (rounds : Nat) : List Record :=
  (List.range rounds).flatMap (fun j => sources.filterMap (fun records => records[j]?))

/-- The merge in the words of the specification: the left fold of the insertion
step over the round-major order, from the empty sequence with `max_distance = 1`. -/
def fold_merge (sources : List (List Record)) (rounds : Nat) : State :=
  (round_major_order sources rounds).foldl insert_record
    { readers := [], sorted_records := [], max_distance := 1, diff_timestamp := 0 }

/-- The state of scenario B after the record `5`: merged sequence `[5]`. -/
def scenario_B_after_5 : State := insert_record (initial scenario_B) ⟨5⟩

/-- The state of scenario B after the records `5` and `3`. -/
def scenario_B_after_3 : State := insert_record scenario_B_after_5 ⟨3⟩

/-- The state of the run on `far_source` after four insertions: merged sequence
`[1, 5, 2^62, 2^63 + 5]`, `max_distance = 2`. -/
def far_state : State := after_insertions far_source 4

/-- Two sources whose round-major order is `1, 2, 4, 5`. -/
def in_order_sources : List (List Record) := [source [1, 4], source [2, 5]]

/-! ## Lemmas on readers and rounds -/

theorem next_record_at (b : List Record) (j : Nat) :
    Reader.next_record { m_records := b, m_iterator := min j b.length } =
      (b[j]?, { m_records := b, m_iterator := min (j + 1) b.length }) := by
  unfold Reader.next_record
  by_cases h : j < b.length
  · have h1 : min j b.length = j := by omega
    have h2 : min (j + 1) b.length = j + 1 := by omega
    simp [h1, h2]
    omega
  · have h1 : min j b.length = b.length := by omega
    have h2 : min (j + 1) b.length = b.length := by omega
    have h3 : b[j]? = none := List.getElem?_eq_none (by omega)
    simp [h1, h2, h3]

theorem take_records_at (sources : List (List Record)) (j : Nat) :
    ∀ (no_records : Bool) (tmp : List Record),
      take_records (readers_at sources j) no_records tmp =
        (no_records && (batch sources j).isEmpty, tmp ++ batch sources j,
          readers_at sources (j + 1)) := by
  induction sources with
  | nil => intro nr tmp; simp [readers_at, batch, take_records]
  | cons b rest ih =>
    intro nr tmp
    have hcons : readers_at (b :: rest) j =
        { m_records := b, m_iterator := min j b.length } :: readers_at rest j := rfl
    have hcons1 : readers_at (b :: rest) (j + 1) =
        { m_records := b, m_iterator := min (j + 1) b.length } :: readers_at rest (j + 1) := rfl
    rw [hcons, hcons1, take_records, next_record_at]
    cases hb : b[j]? with
    | none =>
      simp only [ih]
      simp [batch, hb]
    | some r =>
      simp only [ih]
      simp [batch, hb]

theorem insert_record_readers (st : State) (r : Record) :
    (insert_record st r).readers = st.readers := by
  unfold insert_record
  simp only
  split <;> rfl

theorem insert_record_set_readers (st : State) (r : Record) (rds : List Reader) :
    insert_record (set_readers st rds) r = set_readers (insert_record st r) rds := by
  unfold insert_record set_readers
  simp only
  split <;> rfl

theorem foldl_insert_set_readers (l : List Record) :
    ∀ (st : State) (rds : List Reader),
      l.foldl insert_record (set_readers st rds) =
        set_readers (l.foldl insert_record st) rds := by
  induction l with
  | nil => intro st rds; rfl
  | cons r l ih =>
    intro st rds
    rw [List.foldl_cons, List.foldl_cons, insert_record_set_readers, ih]

theorem round_at (sources : List (List Record)) (j : Nat) (st : State)
    (h : st.readers = readers_at sources j) :
    round st = ((batch sources j).isEmpty, (batch sources j).length,
      set_readers ((batch sources j).foldl insert_record st) (readers_at sources (j + 1))) := by
  have h1 : round st =
      ((take_records st.readers true []).1, (take_records st.readers true []).2.1.length,
        (take_records st.readers true []).2.1.foldl insert_record
          (set_readers st (take_records st.readers true []).2.2)) := rfl
  rw [h1, h, take_records_at, foldl_insert_set_readers]
  simp

theorem max_len_le_iff (sources : List (List Record)) (j : Nat) :
    max_len sources ≤ j ↔ ∀ b ∈ sources, b.length ≤ j := by
  induction sources with
  | nil => simp [max_len]
  | cons b rest ih =>
    have h : max_len (b :: rest) = max b.length (max_len rest) := rfl
    rw [h, Nat.max_le, ih]
    simp

theorem batch_eq_nil_iff (sources : List (List Record)) (j : Nat) :
    batch sources j = [] ↔ max_len sources ≤ j := by
  rw [max_len_le_iff, batch, List.filterMap_eq_nil_iff]
  constructor
  · intro h b hb
    have := h b hb
    by_contra hlt
    rw [List.getElem?_eq_getElem (by omega)] at this
    cases this
  · intro h b hb
    exact List.getElem?_eq_none (h b hb)

theorem set_readers_set_readers (st : State) (a b : List Reader) :
    set_readers (set_readers st a) b = set_readers st b := rfl

theorem set_readers_readers (st : State) (a : List Reader) :
    (set_readers st a).readers = a := rfl

theorem run_rounds_at (sources : List (List Record)) :
    ∀ (k j : Nat) (st : State) (pulled : List Nat) (fuel : Nat),
      j + k = max_len sources → st.readers = readers_at sources j →
      run_rounds fuel st pulled =
        if k < fuel then
          some (set_readers (((List.range' j k).flatMap (batch sources)).foldl insert_record st)
                  (readers_at sources (max_len sources + 1)),
                pulled ++ (List.range' j (k + 1)).map (fun i => (batch sources i).length))
        else none := by
  intro k
  induction k with
  | zero =>
    intro j st pulled fuel hj hst
    cases fuel with
    | zero => simp [run_rounds]
    | succ f =>
      have hb : batch sources j = [] := (batch_eq_nil_iff sources j).2 (by omega)
      have hj1 : j = max_len sources := by omega
      rw [run_rounds, round_at sources j st hst]
      have hr : List.range' j (0 + 1) = [j] := rfl
      rw [hr, ← hj1]
      simp [hb]
  | succ k ih =>
    intro j st pulled fuel hj hst
    cases fuel with
    | zero => simp [run_rounds]
    | succ f =>
      have hb : batch sources j ≠ [] := by
        rw [Ne, batch_eq_nil_iff]; omega
      have hb1 : (batch sources j).isEmpty = false := by
        cases h : batch sources j with
        | nil => exact absurd h hb
        | cons a l => rfl
      rw [run_rounds, round_at sources j st hst]
      simp only [hb1, Bool.false_eq_true, if_false]
      rw [ih (j + 1) _ _ f (by omega) (set_readers_readers _ _), foldl_insert_set_readers,
        set_readers_set_readers]
      have hr : List.range' j (k + 1) = j :: List.range' (j + 1) k := List.range'_succ j k 1
      have hr2 : List.range' j (k + 1 + 1) = j :: List.range' (j + 1) (k + 1) :=
        List.range'_succ j (k + 1) 1
      rw [hr, hr2]
      simp [List.foldl_append]

theorem initial_readers (sources : List (List Record)) :
    (initial sources).readers = readers_at sources 0 := by
  simp [initial, readers_at, Reader.feed]

/-- The engine ends exactly when it is given more than `max_len` rounds, and
then in the state `final` after the pulls `pulls`. -/
theorem engine_eq (fuel : Nat) (sources : List (List Record)) :
    engine fuel sources =
      if max_len sources < fuel then some (final sources, pulls sources) else none := by
  unfold engine
  rw [run_rounds_at sources (max_len sources) 0 (initial sources) [] fuel (by omega)
    (initial_readers sources)]
  simp [final, pulls, arrival, List.range_eq_range']

/-! ## Conservation -/

theorem vector_insert_perm (v : List Record) (p : Nat) (r : Record) :
    (vector_insert v p r).Perm (r :: v) := by
  unfold vector_insert
  have h := @List.perm_middle _ r (v.take p) (v.drop p)
  rwa [List.take_append_drop] at h

theorem insert_record_perm (st : State) (r : Record) :
    (insert_record st r).sorted_records.Perm (r :: st.sorted_records) := by
  unfold insert_record
  simp only
  split
  · exact List.perm_append_singleton r st.sorted_records
  · exact vector_insert_perm _ _ _

theorem foldl_insert_perm (l : List Record) :
    ∀ st : State, (l.foldl insert_record st).sorted_records.Perm (st.sorted_records ++ l) := by
  induction l with
  | nil => intro st; simp
  | cons r l ih =>
    intro st
    rw [List.foldl_cons]
    refine (ih (insert_record st r)).trans ?_
    refine ((insert_record_perm st r).append_right l).trans ?_
    exact (@List.perm_middle _ r st.sorted_records l).symm

theorem range_flatMap_getElem? (b : List Record) :
    ∀ M, b.length ≤ M → (List.range M).flatMap (fun j => (b[j]?).toList) = b := by
  induction b with
  | nil => intro M _; simp
  | cons a b ih =>
    intro M hM
    obtain ⟨M1, rfl⟩ : ∃ M1, M = M1 + 1 := ⟨M - 1, by simp at hM; omega⟩
    rw [List.range_succ_eq_map, List.flatMap_cons, List.flatMap_map]
    have h1 : (fun j => ((a :: b)[Nat.succ j]?).toList) = fun j => (b[j]?).toList := by
      funext j; simp
    rw [h1, ih M1 (by simp at hM; omega)]
    simp [Option.toList]

theorem batch_cons (b : List Record) (rest : List (List Record)) (j : Nat) :
    batch (b :: rest) j = (b[j]?).toList ++ batch rest j := by
  unfold batch
  cases h : b[j]? <;> simp [List.filterMap_cons, h, Option.toList]

theorem range_flatMap_batch_perm (sources : List (List Record)) :
    ∀ M, max_len sources ≤ M →
      ((List.range M).flatMap (batch sources)).Perm sources.flatten := by
  induction sources with
  | nil => intro M _; simp [batch]
  | cons b rest ih =>
    intro M hM
    have hlen : max_len (b :: rest) = max b.length (max_len rest) := rfl
    have hfun : batch (b :: rest) = fun j => (b[j]?).toList ++ batch rest j := by
      funext j; exact batch_cons b rest j
    rw [hfun, List.flatten_cons]
    refine (List.flatMap_append_perm _ _ _).symm.trans ?_
    rw [range_flatMap_getElem? b M (by omega)]
    exact (ih M (by omega)).append_left b

theorem arrival_perm (sources : List (List Record)) :
    (arrival sources).Perm sources.flatten :=
  range_flatMap_batch_perm sources (max_len sources) (Nat.le_refl _)

theorem final_perm (sources : List (List Record)) :
    (final sources).sorted_records.Perm sources.flatten := by
  have h := foldl_insert_perm (arrival sources) (initial sources)
  have h0 : (initial sources).sorted_records = [] := rfl
  rw [h0, List.nil_append] at h
  exact h.trans (arrival_perm sources)

/-! ## The number of rounds -/

theorem pulls_eq (sources : List (List Record)) :
    pulls sources =
      (List.range (max_len sources)).map (fun j => (batch sources j).length) ++ [0] := by
  unfold pulls
  rw [List.range_succ, List.map_append]
  have h : batch sources (max_len sources) = [] :=
    (batch_eq_nil_iff sources _).2 (Nat.le_refl _)
  simp [h]

theorem pulls_pos (sources : List (List Record)) :
    ∀ k ∈ (List.range (max_len sources)).map (fun j => (batch sources j).length), 0 < k := by
  intro k hk
  rw [List.mem_map] at hk
  obtain ⟨j, hj, rfl⟩ := hk
  rw [List.mem_range] at hj
  apply List.length_pos_of_ne_nil
  rw [Ne, batch_eq_nil_iff]
  omega

/-! ## The claims -/

/-- C3 (conservation): for every list of sources the engine ends, and whenever
it ends the multiset of timestamps of `sorted_records` is the multiset of the
timestamps of all records of all sources, and the merged length is the sum of
the source lengths. -/
theorem C3_conservation (sources : List (List Record)) :
    (∃ fuel out, engine fuel sources = some out) ∧
    ∀ fuel out, engine fuel sources = some out →
      (↑(timestamps out.1.sorted_records) : Multiset Nat) = ↑(timestamps sources.flatten) ∧
      out.1.sorted_records.length = (sources.map List.length).sum := by
  constructor
  · exact ⟨max_len sources + 1, (final sources, pulls sources), by simp [engine_eq]⟩
  · intro fuel out h
    rw [engine_eq] at h
    split at h
    · cases h
      have hp := final_perm sources
      refine ⟨?_, ?_⟩
      · exact Multiset.coe_eq_coe.2 (hp.map Record.timestamp)
      · rw [hp.length_eq, List.length_flatten]
    · cases h

/-- C4 (termination bound): the loop ends exactly when more than `max_len`
rounds are allowed; the rounds it performs are `max_len` rounds that each pull
at least one record, followed by one round that pulls nothing. -/
theorem C4_termination_bound (sources : List (List Record)) :
    (∀ fuel, (∃ out, engine fuel sources = some out) ↔ max_len sources < fuel) ∧
    ∀ fuel out, engine fuel sources = some out →
      ∃ counts : List Nat, out.2 = counts ++ [0] ∧ counts.length = max_len sources ∧
        ∀ k ∈ counts, 0 < k := by
  constructor
  · intro fuel
    rw [engine_eq]
    split <;> simp [*]
  · intro fuel out h
    rw [engine_eq] at h
    split at h
    · cases h
      exact ⟨_, pulls_eq sources, by simp, pulls_pos sources⟩
    · cases h

/-- C5 (scenario A): on the sources `[10,30,50]`, `[20,40,60]`, `[15,25,35]`
the engine ends and the merged sequence is `[10,15,20,25,30,35,40,50,60]`. -/
theorem C5_scenario_A :
    (∃ out, engine 4 scenario_A = some out) ∧
    ∀ fuel out, engine fuel scenario_A = some out →
      timestamps out.1.sorted_records = [10, 15, 20, 25, 30, 35, 40, 50, 60] := by
  constructor
  · exact ⟨_, by rw [engine_eq]; rfl⟩
  · intro fuel out h
    rw [engine_eq] at h
    split at h
    · cases h; decide
    · cases h

/-- C6 (scenario B): on the single source `[5,3,1]` the engine ends and the
merged sequence is `[1,3,5]`. -/
theorem C6_scenario_B :
    (∃ out, engine 4 scenario_B = some out) ∧
    ∀ fuel out, engine fuel scenario_B = some out →
      timestamps out.1.sorted_records = [1, 3, 5] := by
  constructor
  · exact ⟨_, by rw [engine_eq]; rfl⟩
  · intro fuel out h
    rw [engine_eq] at h
    split at h
    · cases h; decide
    · cases h

theorem sub_u64_self (a : Nat) : sub_u64 a a = 0 := by
  unfold sub_u64 U64_MOD
  omega

/-- C7 (scenario C and ties): on the two sources `[7]` and `[7]` the engine ends
with the merged sequence `[7,7]`; and in every state, a record whose timestamp
equals the timestamp of the last element is appended at the tail, nothing is
dropped and `max_distance` is unchanged. -/
theorem C7_ties_appended :
    ((∃ out, engine 2 scenario_C = some out) ∧
      ∀ fuel out, engine fuel scenario_C = some out →
        timestamps out.1.sorted_records = [7, 7]) ∧
    ∀ (st : State) (r back : Record), st.sorted_records.getLast? = some back →
      r.timestamp = back.timestamp →
      (insert_record st r).sorted_records = st.sorted_records ++ [r] ∧
      (insert_record st r).max_distance = st.max_distance := by
  refine ⟨⟨⟨_, by rw [engine_eq]; rfl⟩, ?_⟩, ?_⟩
  · intro fuel out h
    rw [engine_eq] at h
    split at h
    · cases h; decide
    · cases h
  · intro st r back hlast heq
    unfold insert_record
    simp only [hlast, heq, sub_u64_self]
    have h0 : (0 : Int) ≤ to_int64 0 := by decide
    rw [if_pos h0]
    exact ⟨rfl, rfl⟩

/-- Witness of C7: the state with merged sequence `[3, 7]` and the record `7`. -/
theorem C7_ties_appended_witness :
    (insert_record tie_state ⟨7⟩).sorted_records = tie_state.sorted_records ++ [⟨7⟩] :=
  (C7_ties_appended.2 tie_state ⟨7⟩ ⟨7⟩ (by decide) (by decide)).1

theorem batch_filter (sources : List (List Record)) (j : Nat) :
    batch (sources.filter (fun s => !s.isEmpty)) j = batch sources j := by
  induction sources with
  | nil => rfl
  | cons b rest ih =>
    cases b with
    | nil => simpa [batch] using ih
    | cons a l =>
      have h : ((a :: l) :: rest).filter (fun s => !s.isEmpty) =
          (a :: l) :: rest.filter (fun s => !s.isEmpty) := by simp
      rw [h, batch_cons, batch_cons, ih]

theorem max_len_filter (sources : List (List Record)) :
    max_len (sources.filter (fun s => !s.isEmpty)) = max_len sources := by
  induction sources with
  | nil => rfl
  | cons b rest ih =>
    cases b with
    | nil =>
      have h : max_len ([] :: rest) = max 0 (max_len rest) := rfl
      rw [h, Nat.zero_max, ← ih]
      simp
    | cons a l =>
      have h : ((a :: l) :: rest).filter (fun s => !s.isEmpty) =
          (a :: l) :: rest.filter (fun s => !s.isEmpty) := by simp
      have h1 : ∀ t : List (List Record), max_len ((a :: l) :: t) =
          max (a :: l).length (max_len t) := fun _ => rfl
      rw [h, h1, h1, ih]

theorem arrival_filter (sources : List (List Record)) :
    arrival (sources.filter (fun s => !s.isEmpty)) = arrival sources := by
  unfold arrival
  rw [max_len_filter]
  congr 1
  funext j
  exact batch_filter sources j

theorem pulls_filter (sources : List (List Record)) :
    pulls (sources.filter (fun s => !s.isEmpty)) = pulls sources := by
  unfold pulls
  rw [max_len_filter]
  congr 1
  funext j
  rw [batch_filter]

theorem outcome_final (sources : List (List Record)) :
    outcome (final sources, pulls sources) =
      (((arrival sources).foldl insert_record (initial [])).sorted_records,
       ((arrival sources).foldl insert_record (initial [])).max_distance,
       pulls sources) := by
  have h : initial sources = set_readers (initial []) (initial sources).readers := rfl
  unfold final
  rw [h, foldl_insert_set_readers]
  rfl

/-- C8 (degenerate inputs): when every source is empty (also when there is no
source) the engine ends after exactly one round, which pulls nothing, with an
empty merged sequence and `max_distance = 1`; and removing the empty sources
from any list of sources changes neither the merged sequence, nor
`max_distance`, nor the rounds performed. -/
theorem C8_degenerate_inputs :
    (∀ sources : List (List Record), (∀ s ∈ sources, s = []) →
      ∀ fuel, 0 < fuel →
        ∃ st, engine fuel sources = some (st, [0]) ∧ st.sorted_records = [] ∧
          st.max_distance = 1) ∧
    ∀ (sources : List (List Record)) (fuel : Nat),
      (engine fuel sources).map outcome =
        (engine fuel (sources.filter (fun s => !s.isEmpty))).map outcome := by
  constructor
  · intro sources hall fuel hfuel
    have hmax : max_len sources = 0 := by
      have := (max_len_le_iff sources 0).2 (fun b hb => by rw [hall b hb]; exact Nat.le_refl _)
      omega
    have harr : arrival sources = [] := by
      unfold arrival; rw [hmax]; rfl
    have hpulls : pulls sources = [0] := by
      rw [pulls_eq, hmax]; rfl
    refine ⟨final sources, ?_, ?_, ?_⟩
    · rw [engine_eq, hmax, if_pos hfuel, hpulls]
    · unfold final; rw [harr]; rfl
    · unfold final; rw [harr]; rfl
  · intro sources fuel
    rw [engine_eq, engine_eq, max_len_filter]
    split
    · simp only [Option.map_some']
      rw [outcome_final, outcome_final, arrival_filter, pulls_filter]
    · rfl

/-- Witness of C8: two empty sources, one round allowed. -/
theorem C8_degenerate_inputs_witness :
    ∃ st, engine 1 [[], []] = some (st, [0]) ∧ st.sorted_records = [] ∧ st.max_distance = 1 :=
  C8_degenerate_inputs.1 [[], []] (by decide) 1 (by decide)

theorem after_pulls_at (b : List Record) :
    ∀ k j, after_pulls k { m_records := b, m_iterator := min j b.length } =
      { m_records := b, m_iterator := min (j + k) b.length } := by
  intro k
  induction k with
  | zero => intro j; rfl
  | succ k ih =>
    intro j
    rw [after_pulls, next_record_at, ih (j + 1)]
    congr 2
    omega

theorem after_pulls_feed (b : List Record) (k : Nat) :
    after_pulls k (Reader.feed Reader.new b) =
      { m_records := b, m_iterator := min k b.length } := by
  have h : Reader.feed Reader.new b = { m_records := b, m_iterator := min 0 b.length } := by
    simp [Reader.feed]
  rw [h, after_pulls_at, Nat.zero_add]

theorem kth_pull_eq (b : List Record) (k : Nat) : kth_pull b k = b[k]? := by
  unfold kth_pull
  rw [after_pulls_feed, next_record_at]

/-- C9 (pull contract): on a reader fed with a backlog of length `n`, the
`k`-th call of `next_record` returns the record at position `k` when `k < n`
and nothing when `n ≤ k`; the iterator after `k` calls is at `min k n`, so no
position is handed out twice; and once a call has returned nothing, every later
call returns nothing. -/
theorem C9_pull_contract (backlog : List Record) :
    (∀ k (h : k < backlog.length), kth_pull backlog k = some backlog[k]) ∧
    (∀ k, backlog.length ≤ k → kth_pull backlog k = none) ∧
    (∀ k, (after_pulls k (Reader.feed Reader.new backlog)).m_iterator = min k backlog.length) ∧
    (∀ k k2, kth_pull backlog k = none → k ≤ k2 → kth_pull backlog k2 = none) := by
  refine ⟨?_, ?_, ?_, ?_⟩
  · intro k h
    rw [kth_pull_eq, List.getElem?_eq_getElem h]
  · intro k h
    rw [kth_pull_eq, List.getElem?_eq_none h]
  · intro k
    rw [after_pulls_feed]
  · intro k k2 h hk
    rw [kth_pull_eq] at h ⊢
    rw [List.getElem?_eq_none_iff] at h ⊢
    omega

/-- Witness of C9: the backlog `[4, 2]`, the call number `1` and the call number `2`. -/
theorem C9_pull_contract_witness :
    kth_pull (source [4, 2]) 1 = some ⟨2⟩ ∧ kth_pull (source [4, 2]) 2 = none :=
  ⟨(C9_pull_contract (source [4, 2])).1 1 (by decide),
   (C9_pull_contract (source [4, 2])).2.1 2 (by decide)⟩

/-- C1 (sortedness, all inputs), evaluated where it fails: on the single source
`[10,20,30,5]` the engine ends with the merged sequence `[10,20,5,30]`, and on
ten readers of three records (first records `10,20,30,5,40,...`) it ends with a
merged sequence that starts `10,20,5,30`; neither is non-decreasing. -/
theorem C1_late_record_unsorted :
    (∃ out, engine 5 late_record = some out) ∧
    (∀ fuel out, engine fuel late_record = some out →
      timestamps out.1.sorted_records = [10, 20, 5, 30] ∧ ¬ is_sorted out.1.sorted_records) ∧
    (∃ out, engine 4 harness_late = some out) ∧
    (∀ fuel out, engine fuel harness_late = some out →
      (timestamps out.1.sorted_records).take 4 = [10, 20, 5, 30] ∧
      ¬ is_sorted out.1.sorted_records) := by
  refine ⟨⟨_, by rw [engine_eq]; rfl⟩, ?_, ⟨_, by rw [engine_eq]; rfl⟩, ?_⟩
  · intro fuel out h
    rw [engine_eq] at h
    split at h
    · cases h; decide
    · cases h
  · intro fuel out h
    rw [engine_eq] at h
    split at h
    · cases h
      set_option maxRecDepth 20000 in decide
    · cases h

/-- C2 (sortedness, ordered sources), evaluated where it fails: on the three
non-decreasing sources `[10,20]`, `[10,21]`, `[10,10]` the engine ends with the
merged sequence `[10,10,10,20,10,21]`, and on ten non-decreasing readers of
three records it ends with a merged sequence that is not non-decreasing. -/
theorem C2_ordered_sources_unsorted :
    (∀ s ∈ ordered_three, is_sorted s) ∧
    (∃ out, engine 3 ordered_three = some out) ∧
    (∀ fuel out, engine fuel ordered_three = some out →
      timestamps out.1.sorted_records = [10, 10, 10, 20, 10, 21] ∧
      ¬ is_sorted out.1.sorted_records) ∧
    (∀ s ∈ harness_ordered, is_sorted s) ∧
    (∃ out, engine 4 harness_ordered = some out) ∧
    (∀ fuel out, engine fuel harness_ordered = some out →
      ¬ is_sorted out.1.sorted_records) := by
  refine ⟨by decide, ⟨_, by rw [engine_eq]; rfl⟩, ?_, by decide,
    ⟨_, by rw [engine_eq]; rfl⟩, ?_⟩
  · intro fuel out h
    rw [engine_eq] at h
    split at h
    · cases h; decide
    · cases h
  · intro fuel out h
    rw [engine_eq] at h
    split at h
    · cases h
      set_option maxRecDepth 20000 in decide
    · cases h

/-- C10 (fast-path decision), evaluated where it fails: with the merged
sequence `[2^63 + 5]` and the record `1`, the record is older than the last
element, yet the wrapped difference read as `int64_t` is `2^63 - 4 ≥ 0` and the
record is appended at the tail; run from the start on the source
`[2^63 + 5, 1]`, the engine ends with the merged sequence `[2^63 + 5, 1]`. -/
theorem C10_wrapped_difference_appends :
    wrap_state.sorted_records.getLast? = some ⟨9223372036854775813⟩ ∧
    (⟨1⟩ : Record).timestamp < (⟨9223372036854775813⟩ : Record).timestamp ∧
    to_int64 (sub_u64 1 9223372036854775813) = 9223372036854775804 ∧
    (insert_record wrap_state ⟨1⟩).sorted_records = wrap_state.sorted_records ++ [⟨1⟩] ∧
    (∃ out, engine 3 wrap_source = some out) ∧
    (∀ fuel out, engine fuel wrap_source = some out →
      timestamps out.1.sorted_records = [9223372036854775813, 1]) := by
  refine ⟨by decide, by decide, by decide, by decide, ⟨_, by rw [engine_eq]; rfl⟩, ?_⟩
  intro fuel out h
  rw [engine_eq] at h
  split at h
  · cases h; decide
  · cases h

/-! ## The insertion step, branch by branch -/

theorem vector_insert_length (v : List Record) (p : Nat) (r : Record) :
    (vector_insert v p r).length = v.length + 1 := by
  unfold vector_insert
  simp only [List.length_append, List.length_cons, List.length_take, List.length_drop]
  omega

theorem path_taken_append_iff (st : State) (r : Record) :
    path_taken st r = Path.append ↔ 0 ≤ next_diff st r := by
  unfold path_taken
  by_cases h1 : 0 ≤ next_diff st r
  · simp [h1]
  · simp only [h1, if_false, iff_false]
    split <;> simp

theorem path_taken_bounded_iff (st : State) (r : Record) :
    path_taken st r = Path.bounded ↔
      next_diff st r < 0 ∧ abs_int64 (next_diff st r) ≤ window_bound st := by
  unfold path_taken
  by_cases h1 : 0 ≤ next_diff st r
  · simp only [h1, if_true]
    constructor
    · intro h; cases h
    · intro h; omega
  · simp only [h1, if_false]
    split
    · rename_i h2
      exact ⟨fun _ => h2, fun _ => rfl⟩
    · rename_i h2
      exact ⟨fun h => (by cases h), fun h => absurd h h2⟩

/-- The insertion step written with the branch and the insertion index named. -/
theorem insert_record_eq (st : State) (r : Record) :
    insert_record st r =
      if path_taken st r = Path.append then
        { st with sorted_records := st.sorted_records ++ [r],
                  diff_timestamp := next_diff st r }
      else
        { st with sorted_records := vector_insert st.sorted_records (insertion_index st r) r,
                  max_distance := max st.max_distance
                    ((vector_insert st.sorted_records (insertion_index st r) r).length -
                      insertion_index st r),
                  diff_timestamp := next_diff st r } := by
  by_cases h1 : 0 ≤ next_diff st r
  · have hp : path_taken st r = Path.append := (path_taken_append_iff st r).2 h1
    rw [if_pos hp]
    unfold insert_record
    unfold next_diff at h1
    simp only [if_pos h1]
    rfl
  · have hp : path_taken st r ≠ Path.append := fun h => h1 ((path_taken_append_iff st r).1 h)
    rw [if_neg hp]
    by_cases h2 : next_diff st r < 0 ∧ abs_int64 (next_diff st r) ≤ window_bound st
    · have hb : path_taken st r = Path.bounded := (path_taken_bounded_iff st r).2 h2
      have hi : insertion_index st r =
          upper_bound st.sorted_records (window_start st) st.sorted_records.length r := by
        unfold insertion_index; rw [hb]
      rw [hi]
      unfold insert_record
      unfold next_diff at h1
      unfold next_diff window_bound window_start at h2
      simp only [if_neg h1, if_pos h2]
      rfl
    · have hb : path_taken st r = Path.fallback := by
        cases hc : path_taken st r with
        | append => exact absurd hc hp
        | bounded => exact absurd ((path_taken_bounded_iff st r).1 hc) h2
        | fallback => rfl
      have hi : insertion_index st r =
          lower_bound st.sorted_records 0 st.sorted_records.length r := by
        unfold insertion_index; rw [hb]
      rw [hi]
      unfold insert_record
      unfold next_diff at h1
      unfold next_diff window_bound window_start at h2
      simp only [if_neg h1, if_neg h2]
      rfl

theorem insert_record_sorted_records (st : State) (r : Record) :
    (insert_record st r).sorted_records =
      vector_insert st.sorted_records (insertion_index st r) r := by
  rw [insert_record_eq]
  split
  · rename_i h
    have hi : insertion_index st r = st.sorted_records.length := by
      unfold insertion_index; rw [h]
    simp [hi, vector_insert]
  · rfl

theorem insert_record_max_distance (st : State) (r : Record) :
    (insert_record st r).max_distance =
      if path_taken st r = Path.append then st.max_distance
      else max st.max_distance (st.sorted_records.length + 1 - insertion_index st r) := by
  rw [insert_record_eq]
  split
  · rfl
  · simp only [vector_insert_length]

theorem insert_record_diff (st : State) (r : Record) :
    (insert_record st r).diff_timestamp = next_diff st r := by
  rw [insert_record_eq]
  split <;> rfl

/-! ## The two searches -/

theorem lower_bound_loop_range (v : List Record) (val : Record) :
    ∀ fuel first len, first ≤ lower_bound_loop v val fuel first len ∧
      lower_bound_loop v val fuel first len ≤ first + len := by
  intro fuel
  induction fuel with
  | zero => intro first len; simp [lower_bound_loop]
  | succ fuel ih =>
    intro first len
    rw [lower_bound_loop]
    by_cases hlen : 0 < len
    · rw [if_pos hlen]
      simp only
      by_cases hc : cmp_records (deref v (first + len / 2)) val = true
      · rw [if_pos hc]
        have := ih (first + len / 2 + 1) (len - len / 2 - 1)
        omega
      · rw [if_neg hc]
        have := ih first (len / 2)
        omega
    · rw [if_neg hlen]; omega

theorem upper_bound_loop_range (v : List Record) (val : Record) :
    ∀ fuel first len, first ≤ upper_bound_loop v val fuel first len ∧
      upper_bound_loop v val fuel first len ≤ first + len := by
  intro fuel
  induction fuel with
  | zero => intro first len; simp [upper_bound_loop]
  | succ fuel ih =>
    intro first len
    rw [upper_bound_loop]
    by_cases hlen : 0 < len
    · rw [if_pos hlen]
      simp only
      by_cases hc : cmp_records val (deref v (first + len / 2)) = true
      · rw [if_pos hc]
        have := ih first (len / 2)
        omega
      · rw [if_neg hc]
        have := ih (first + len / 2 + 1) (len - len / 2 - 1)
        omega
    · rw [if_neg hlen]; omega

theorem lower_bound_le (v : List Record) (r : Record) :
    lower_bound v 0 v.length r ≤ v.length := by
  have := (lower_bound_loop_range v r (v.length - 0) 0 (v.length - 0)).2
  unfold lower_bound
  omega

theorem upper_bound_le (v : List Record) (first : Nat) (r : Record) (h : first ≤ v.length) :
    upper_bound v first v.length r ≤ v.length := by
  have := (upper_bound_loop_range v r (v.length - first) first (v.length - first)).2
  unfold upper_bound
  omega

theorem upper_bound_ge (v : List Record) (first last : Nat) (r : Record) :
    first ≤ upper_bound v first last r :=
  (upper_bound_loop_range v r (last - first) first (last - first)).1

theorem cmp_records_iff (a b : Record) :
    cmp_records a b = true ↔ a.timestamp < b.timestamp := by
  simp [cmp_records]

/-- On a range that is non-decreasing, the loop of `lower_bound` returns the
partition point: below it the timestamps are smaller than the value, from it on
they are not. -/
theorem lower_bound_loop_spec (v : List Record) (val : Record) :
    ∀ fuel first len, len ≤ fuel →
      (∀ i j, first ≤ i → i ≤ j → j < first + len →
        (deref v i).timestamp ≤ (deref v j).timestamp) →
      (∀ i, first ≤ i → i < lower_bound_loop v val fuel first len →
        (deref v i).timestamp < val.timestamp) ∧
      (∀ i, lower_bound_loop v val fuel first len ≤ i → i < first + len →
        val.timestamp ≤ (deref v i).timestamp) := by
  intro fuel
  induction fuel with
  | zero =>
    intro first len hfuel _
    simp only [lower_bound_loop]
    exact ⟨fun i h1 h2 => by omega, fun i h1 h2 => by omega⟩
  | succ fuel ih =>
    intro first len hfuel hmono
    rw [lower_bound_loop]
    by_cases hlen : 0 < len
    · rw [if_pos hlen]
      simp only
      by_cases hc : cmp_records (deref v (first + len / 2)) val = true
      · rw [if_pos hc]
        have hlt := (cmp_records_iff _ _).1 hc
        have hrec := ih (first + len / 2 + 1) (len - len / 2 - 1) (by omega)
          (fun i j h1 h2 h3 => hmono i j (by omega) h2 (by omega))
        refine ⟨fun i h1 h2 => ?_, fun i h1 h2 => hrec.2 i h1 (by omega)⟩
        by_cases hi : i ≤ first + len / 2
        · exact Nat.lt_of_le_of_lt (hmono i (first + len / 2) h1 hi (by omega)) hlt
        · exact hrec.1 i (by omega) h2
      · rw [if_neg hc]
        have hge : val.timestamp ≤ (deref v (first + len / 2)).timestamp := by
          rw [cmp_records_iff] at hc; omega
        have hrec := ih first (len / 2) (by omega)
          (fun i j h1 h2 h3 => hmono i j h1 h2 (by omega))
        refine ⟨fun i h1 h2 => hrec.1 i h1 h2, fun i h1 h2 => ?_⟩
        by_cases hi : i < first + len / 2
        · exact hrec.2 i h1 hi
        · exact Nat.le_trans hge (hmono (first + len / 2) i (by omega) (by omega) h2)
    · rw [if_neg hlen]
      exact ⟨fun i h1 h2 => by omega, fun i h1 h2 => by omega⟩

/-- On a range that is non-decreasing, the loop of `upper_bound` returns the
partition point: below it the timestamps are at most the value, from it on they
are greater. -/
theorem upper_bound_loop_spec (v : List Record) (val : Record) :
    ∀ fuel first len, len ≤ fuel →
      (∀ i j, first ≤ i → i ≤ j → j < first + len →
        (deref v i).timestamp ≤ (deref v j).timestamp) →
      (∀ i, first ≤ i → i < upper_bound_loop v val fuel first len →
        (deref v i).timestamp ≤ val.timestamp) ∧
      (∀ i, upper_bound_loop v val fuel first len ≤ i → i < first + len →
        val.timestamp < (deref v i).timestamp) := by
  intro fuel
  induction fuel with
  | zero =>
    intro first len hfuel _
    simp only [upper_bound_loop]
    exact ⟨fun i h1 h2 => by omega, fun i h1 h2 => by omega⟩
  | succ fuel ih =>
    intro first len hfuel hmono
    rw [upper_bound_loop]
    by_cases hlen : 0 < len
    · rw [if_pos hlen]
      simp only
      by_cases hc : cmp_records val (deref v (first + len / 2)) = true
      · rw [if_pos hc]
        have hlt := (cmp_records_iff _ _).1 hc
        have hrec := ih first (len / 2) (by omega)
          (fun i j h1 h2 h3 => hmono i j h1 h2 (by omega))
        refine ⟨fun i h1 h2 => hrec.1 i h1 h2, fun i h1 h2 => ?_⟩
        by_cases hi : i < first + len / 2
        · exact hrec.2 i h1 hi
        · exact Nat.lt_of_lt_of_le hlt (hmono (first + len / 2) i (by omega) (by omega) h2)
      · rw [if_neg hc]
        have hge : (deref v (first + len / 2)).timestamp ≤ val.timestamp := by
          rw [cmp_records_iff] at hc; omega
        have hrec := ih (first + len / 2 + 1) (len - len / 2 - 1) (by omega)
          (fun i j h1 h2 h3 => hmono i j (by omega) h2 (by omega))
        refine ⟨fun i h1 h2 => ?_, fun i h1 h2 => hrec.2 i h1 (by omega)⟩
        by_cases hi : i ≤ first + len / 2
        · exact Nat.le_trans (hmono i (first + len / 2) h1 hi (by omega)) hge
        · exact hrec.1 i (by omega) h2
    · rw [if_neg hlen]
      exact ⟨fun i h1 h2 => by omega, fun i h1 h2 => by omega⟩

theorem deref_eq (v : List Record) (i : Nat) (h : i < v.length) : deref v i = v[i] :=
  List.getD_eq_getElem v _ h

theorem sorted_deref (v : List Record) (hs : is_sorted v) (i j : Nat) (hij : i ≤ j)
    (hj : j < v.length) : (deref v i).timestamp ≤ (deref v j).timestamp := by
  rw [deref_eq v i (by omega), deref_eq v j hj]
  rcases Nat.eq_or_lt_of_le hij with h | h
  · subst h; exact Nat.le_refl _
  · unfold is_sorted List.Sorted at hs
    have := List.pairwise_iff_getElem.1 hs i j (by simp [timestamps]; omega)
      (by simp [timestamps]; omega) h
    simpa [timestamps] using this

theorem lower_bound_sorted (v : List Record) (r : Record) (hs : is_sorted v) :
    lower_bound v 0 v.length r ≤ v.length ∧
    (∀ i, i < lower_bound v 0 v.length r → (deref v i).timestamp < r.timestamp) ∧
    (∀ i, lower_bound v 0 v.length r ≤ i → i < v.length →
      r.timestamp ≤ (deref v i).timestamp) := by
  have hspec := lower_bound_loop_spec v r (v.length - 0) 0 (v.length - 0) (Nat.le_refl _)
    (fun i j _ h2 h3 => sorted_deref v hs i j h2 (by omega))
  refine ⟨lower_bound_le v r, fun i hi => hspec.1 i (Nat.zero_le _) hi, fun i h1 h2 => ?_⟩
  exact hspec.2 i h1 (by omega)

theorem upper_bound_sorted (v : List Record) (first : Nat) (r : Record) (hs : is_sorted v)
    (hf : first ≤ v.length) :
    first ≤ upper_bound v first v.length r ∧ upper_bound v first v.length r ≤ v.length ∧
    (∀ i, first ≤ i → i < upper_bound v first v.length r →
      (deref v i).timestamp ≤ r.timestamp) ∧
    (∀ i, upper_bound v first v.length r ≤ i → i < v.length →
      r.timestamp < (deref v i).timestamp) := by
  have hspec := upper_bound_loop_spec v r (v.length - first) first (v.length - first)
    (Nat.le_refl _) (fun i j _ h2 h3 => sorted_deref v hs i j h2 (by omega))
  refine ⟨upper_bound_ge v first _ r, upper_bound_le v first r hf,
    fun i h1 h2 => hspec.1 i h1 h2, fun i h1 h2 => ?_⟩
  exact hspec.2 i h1 (by omega)

theorem vector_insert_sorted (v : List Record) (p : Nat) (r : Record) (hs : is_sorted v)
    (hlo : ∀ i, i < p → i < v.length → (deref v i).timestamp ≤ r.timestamp)
    (hhi : ∀ i, p ≤ i → i < v.length → r.timestamp ≤ (deref v i).timestamp) :
    is_sorted (vector_insert v p r) := by
  unfold is_sorted List.Sorted at hs ⊢
  have hsplit : timestamps v = timestamps (v.take p) ++ timestamps (v.drop p) := by
    simp [timestamps, ← List.map_append]
  rw [hsplit, List.pairwise_append] at hs
  obtain ⟨h1, h2, h3⟩ := hs
  have hins : timestamps (vector_insert v p r) =
      timestamps (v.take p) ++ r.timestamp :: timestamps (v.drop p) := by
    simp [timestamps, vector_insert]
  rw [hins, List.pairwise_append, List.pairwise_cons]
  refine ⟨h1, ⟨?_, h2⟩, ?_⟩
  · intro b hb
    simp only [timestamps, List.mem_map] at hb
    obtain ⟨x, hx, rfl⟩ := hb
    rw [List.mem_drop_iff_getElem] at hx
    obtain ⟨i, hi, rfl⟩ := hx
    have := hhi (p + i) (by omega) (by omega)
    rwa [deref_eq v (p + i) (by omega)] at this
  · intro a ha b hb
    rw [List.mem_cons] at hb
    rcases hb with rfl | hb
    · simp only [timestamps, List.mem_map] at ha
      obtain ⟨x, hx, rfl⟩ := ha
      rw [List.mem_take_iff_getElem] at hx
      obtain ⟨i, hi, rfl⟩ := hx
      have hi2 : i < p ∧ i < v.length := by
        have := hi; simp only [Nat.lt_min] at this; exact this
      have := hlo i hi2.1 hi2.2
      rwa [deref_eq v i hi2.2] at this
    · exact h3 a ha b hb

/-! ## States of a run -/

theorem window_start_le (st : State) : window_start st ≤ st.sorted_records.length := by
  unfold window_start; omega

theorem insertion_index_le (st : State) (r : Record) :
    insertion_index st r ≤ st.sorted_records.length := by
  unfold insertion_index
  cases path_taken st r with
  | append => exact Nat.le_refl _
  | bounded => exact upper_bound_le _ _ _ (window_start_le st)
  | fallback => exact lower_bound_le _ _

theorem insert_record_length (st : State) (r : Record) :
    (insert_record st r).sorted_records.length = st.sorted_records.length + 1 := by
  rw [insert_record_sorted_records, vector_insert_length]

theorem insert_record_max_distance_ge (st : State) (r : Record) :
    st.max_distance ≤ (insert_record st r).max_distance := by
  rw [insert_record_max_distance]
  split
  · exact Nat.le_refl _
  · exact Nat.le_max_left _ _

/-- In every state of a run: `max_distance` is at least `1` and at most the
length of the vector (at most `1` while the vector is empty), and
`diff_timestamp` is `0` while the vector is empty. -/
theorem reachable_inv (st : State) (h : Reachable st) :
    1 ≤ st.max_distance ∧ st.max_distance ≤ max 1 st.sorted_records.length ∧
    (st.sorted_records = [] → st.diff_timestamp = 0) := by
  induction h with
  | start sources => exact ⟨Nat.le_refl _, by simp [initial], fun _ => rfl⟩
  | insert st r _ ih =>
    obtain ⟨h1, h2, _⟩ := ih
    have hlen := insert_record_length st r
    have hidx := insertion_index_le st r
    refine ⟨Nat.le_trans h1 (insert_record_max_distance_ge st r), ?_, ?_⟩
    · rw [insert_record_max_distance, hlen]
      split <;> omega
    · intro hnil
      rw [hnil] at hlen
      simp at hlen
  | pull st readers _ ih => exact ih

theorem next_diff_of_nil (st : State) (r : Record) (h : st.sorted_records = []) :
    next_diff st r = st.diff_timestamp := by
  unfold next_diff
  rw [h]
  rfl

theorem reachable_search_nonempty (st : State) (h : Reachable st) (r : Record)
    (hp : path_taken st r ≠ Path.append) : st.sorted_records ≠ [] := by
  intro hnil
  apply hp
  rw [path_taken_append_iff, next_diff_of_nil st r hnil, (reachable_inv st h).2.2 hnil]

theorem after_insertions_succ (sources : List (List Record)) (k : Nat)
    (h : k < (arrival sources).length) :
    after_insertions sources (k + 1) =
      insert_record (after_insertions sources k) (arrival sources)[k] := by
  unfold after_insertions
  rw [List.take_succ, List.foldl_append, List.getElem?_eq_getElem h]
  rfl

theorem after_insertions_of_le (sources : List (List Record)) (k : Nat)
    (h : (arrival sources).length ≤ k) :
    after_insertions sources k = after_insertions sources (arrival sources).length := by
  unfold after_insertions
  rw [List.take_of_length_le h, List.take_length]

theorem foldl_insert_reachable (l : List Record) :
    ∀ st, Reachable st → Reachable (l.foldl insert_record st) := by
  induction l with
  | nil => intro st h; exact h
  | cons r l ih => intro st h; exact ih _ (Reachable.insert st r h)

theorem after_insertions_reachable (sources : List (List Record)) (k : Nat) :
    Reachable (after_insertions sources k) :=
  foldl_insert_reachable _ _ (Reachable.start sources)

theorem final_eq (sources : List (List Record)) :
    final sources = set_readers (after_insertions sources (arrival sources).length)
      (readers_at sources (max_len sources + 1)) := by
  unfold final after_insertions
  rw [List.take_length]

theorem final_reachable (sources : List (List Record)) : Reachable (final sources) := by
  rw [final_eq]
  exact Reachable.pull _ _ (after_insertions_reachable sources _)

theorem after_insertions_max_distance_step (sources : List (List Record)) (k : Nat) :
    (after_insertions sources k).max_distance ≤
      (after_insertions sources (k + 1)).max_distance := by
  by_cases h : k < (arrival sources).length
  · rw [after_insertions_succ sources k h]
    exact insert_record_max_distance_ge _ _
  · rw [after_insertions_of_le sources k (by omega),
      after_insertions_of_le sources (k + 1) (by omega)]

/-- C11 (heuristic non-regression): `max_distance` starts at `1`; no insertion
step lowers it; along a run its value after `j` insertions is at most its value
after `k ≥ j` insertions; and the value the engine ends with is the value after
the last insertion. -/
theorem C11_max_distance_monotone :
    (∀ sources : List (List Record), (initial sources).max_distance = 1) ∧
    (∀ (st : State) (r : Record), st.max_distance ≤ (insert_record st r).max_distance) ∧
    (∀ (sources : List (List Record)) (j k : Nat), j ≤ k →
      (after_insertions sources j).max_distance ≤ (after_insertions sources k).max_distance) ∧
    (∀ (sources : List (List Record)) (fuel : Nat) (out : State × List Nat),
      engine fuel sources = some out →
      out.1.max_distance =
        (after_insertions sources (arrival sources).length).max_distance) := by
  refine ⟨fun _ => rfl, insert_record_max_distance_ge, ?_, ?_⟩
  · intro sources j k hjk
    induction k with
    | zero =>
      have : j = 0 := by omega
      rw [this]
    | succ k ih =>
      by_cases h : j = k + 1
      · rw [h]
      · exact Nat.le_trans (ih (by omega)) (after_insertions_max_distance_step sources k)
  · intro sources fuel out h
    rw [engine_eq] at h
    split at h
    · cases h
      rw [final_eq]
      rfl
    · cases h

/-- Witness of C11: scenario A, after two and after three insertions. -/
theorem C11_max_distance_monotone_witness :
    (after_insertions scenario_A 2).max_distance ≤
      (after_insertions scenario_A 3).max_distance :=
  C11_max_distance_monotone.2.2.1 scenario_A 2 3 (by decide)

/-- C15 (update rule): in every state of a run the insertion step places the
record at `insertion_index`, and the new `max_distance` is the maximum of the
old one and the new length minus that index; on the append branch, which skips
the update, the index is the old length and `max_distance` is unchanged. -/
theorem C15_max_distance_update (st : State) (r : Record) (h : Reachable st) :
    (insert_record st r).sorted_records =
      vector_insert st.sorted_records (insertion_index st r) r ∧
    (insert_record st r).max_distance =
      max st.max_distance
        ((insert_record st r).sorted_records.length - insertion_index st r) ∧
    (path_taken st r = Path.append →
      insertion_index st r = st.sorted_records.length ∧
      (insert_record st r).max_distance = st.max_distance) := by
  have h1 := (reachable_inv st h).1
  have hidx : path_taken st r = Path.append →
      insertion_index st r = st.sorted_records.length := by
    intro hp; unfold insertion_index; rw [hp]
  refine ⟨insert_record_sorted_records st r, ?_, fun hp => ⟨hidx hp, ?_⟩⟩
  · rw [insert_record_length, insert_record_max_distance]
    split
    · rename_i hp
      rw [hidx hp]
      omega
    · rfl
  · rw [insert_record_max_distance, if_pos hp]

/-- Witness of C15: scenario B when the record `3` meets the merged sequence `[5]`. -/
theorem C15_max_distance_update_witness :
    Reachable scenario_B_after_5 ∧ (insert_record scenario_B_after_5 ⟨3⟩).max_distance = 2 :=
  ⟨Reachable.insert _ _ (Reachable.start scenario_B),
   (C15_max_distance_update scenario_B_after_5 ⟨3⟩
      (Reachable.insert _ _ (Reachable.start scenario_B))).2.1.trans (by decide)⟩

/-- C18 (window index in range): the states of a run are reachable states; in
every reachable state `1 ≤ max_distance`, and `max_distance` is at most the
length of a non-empty vector; and whenever the step does not append (so that
`sorted_records[size - max_distance]` is read) the vector is non-empty, the
subtraction `size - max_distance` does not underflow and is a valid index. -/
theorem C18_window_in_range :
    (∀ (sources : List (List Record)) (k : Nat), Reachable (after_insertions sources k)) ∧
    (∀ (sources : List (List Record)) (fuel : Nat) (out : State × List Nat),
      engine fuel sources = some out → Reachable out.1) ∧
    ∀ st : State, Reachable st →
      1 ≤ st.max_distance ∧
      (st.sorted_records ≠ [] → st.max_distance ≤ st.sorted_records.length) ∧
      ∀ r : Record, path_taken st r ≠ Path.append →
        st.sorted_records ≠ [] ∧ st.max_distance ≤ st.sorted_records.length ∧
        window_start st + st.max_distance = st.sorted_records.length ∧
        window_start st < st.sorted_records.length := by
  refine ⟨after_insertions_reachable, ?_, ?_⟩
  · intro sources fuel out h
    rw [engine_eq] at h
    split at h
    · cases h; exact final_reachable sources
    · cases h
  · intro st h
    obtain ⟨h1, h2, _⟩ := reachable_inv st h
    have hne : st.sorted_records ≠ [] → st.max_distance ≤ st.sorted_records.length := by
      intro hne
      have : 0 < st.sorted_records.length := List.length_pos_of_ne_nil hne
      omega
    refine ⟨h1, hne, fun r hp => ?_⟩
    have hS := reachable_search_nonempty st h r hp
    have hle := hne hS
    unfold window_start
    exact ⟨hS, hle, by omega, by omega⟩

/-- Witness of C18: scenario B when the record `3` meets the merged sequence `[5]`. -/
theorem C18_window_in_range_witness :
    window_start scenario_B_after_5 < scenario_B_after_5.sorted_records.length :=
  ((C18_window_in_range.2.2 scenario_B_after_5
    (Reachable.insert _ _ (Reachable.start scenario_B))).2.2 ⟨3⟩ (by decide)).2.2.2

theorem round_major_order_eq (sources : List (List Record)) (M : Nat)
    (h : max_len sources ≤ M) : round_major_order sources M = arrival sources := by
  obtain ⟨d, rfl⟩ : ∃ d, M = max_len sources + d := ⟨M - max_len sources, by omega⟩
  have hr : List.range (max_len sources + d) =
      List.range (max_len sources) ++ List.range' (max_len sources) d := by
    rw [List.range_eq_range', List.range_eq_range']
    have := List.range'_append 0 (max_len sources) d 1
    simp only [Nat.zero_add, Nat.one_mul] at this
    rw [this, Nat.add_comm]
  have htail : (List.range' (max_len sources) d).flatMap (batch sources) = [] := by
    rw [List.flatMap_eq_nil_iff]
    intro j hj
    rw [List.mem_range'_1] at hj
    exact (batch_eq_nil_iff sources j).2 hj.1
  show (List.range (max_len sources + d)).flatMap (batch sources) = _
  rw [hr, List.flatMap_append, htail, List.append_nil]
  rfl

/-- C16 (round-major, source-minor refinement): the engine ends, and the merged
sequence and `max_distance` it ends with are those of the left fold of the
insertion step over the round-major order of the sources, started from the
empty sequence with `max_distance = 1`; listing more rounds than the longest
source has records changes nothing. -/
theorem C16_round_major_refinement (sources : List (List Record)) :
    (∃ fuel out, engine fuel sources = some out) ∧
    (∀ fuel out, engine fuel sources = some out →
      ∀ rounds, max_len sources ≤ rounds →
        out.1.sorted_records = (fold_merge sources rounds).sorted_records ∧
        out.1.max_distance = (fold_merge sources rounds).max_distance) := by
  constructor
  · exact ⟨max_len sources + 1, (final sources, pulls sources), by simp [engine_eq]⟩
  · intro fuel out h rounds hr
    rw [engine_eq] at h
    split at h
    · cases h
      have ho := outcome_final sources
      unfold fold_merge
      rw [round_major_order_eq sources rounds hr]
      unfold outcome at ho
      simp only [Prod.mk.injEq] at ho
      exact ⟨ho.1, ho.2.1⟩
    · cases h

/-- Witness of C16: scenario A, three rounds listed. -/
theorem C16_round_major_refinement_witness :
    engine 4 scenario_A = some (final scenario_A, pulls scenario_A) ∧
    (final scenario_A).sorted_records = (fold_merge scenario_A 3).sorted_records :=
  ⟨by rw [engine_eq]; rfl,
   ((C16_round_major_refinement scenario_A).2 4 (final scenario_A, pulls scenario_A)
      (by rw [engine_eq]; rfl) 3 (by decide)).1⟩

/-- C17 refuted as stated (scenario B path): the two insertions after the first
do not both take the `lower_bound` branch; the record `3` takes the
`upper_bound` branch. -/
theorem C17_not_both_fallback :
    ¬ (path_taken scenario_B_after_5 ⟨3⟩ = Path.fallback ∧
       path_taken scenario_B_after_3 ⟨1⟩ = Path.fallback) := by
  decide

/-- C17 as amended (scenario B path): the run on `[5,3,1]` inserts `5`, `3`, `1`
in this order; the append test fails for `3` and for `1`; the record `3` meets
`[5]` with difference `-2` and bound `5` and takes the `upper_bound` branch on
the window; the record `1` meets `[3,5]` with difference `-4` and bound `3` and
takes the `lower_bound` branch on the whole vector. -/
theorem C17_scenario_B_paths :
    arrival scenario_B = [⟨5⟩, ⟨3⟩, ⟨1⟩] ∧
    after_insertions scenario_B 1 = scenario_B_after_5 ∧
    after_insertions scenario_B 2 = scenario_B_after_3 ∧
    path_taken (initial scenario_B) ⟨5⟩ = Path.append ∧
    path_taken scenario_B_after_5 ⟨3⟩ ≠ Path.append ∧
    path_taken scenario_B_after_3 ⟨1⟩ ≠ Path.append ∧
    next_diff scenario_B_after_5 ⟨3⟩ = -2 ∧ window_bound scenario_B_after_5 = 5 ∧
    path_taken scenario_B_after_5 ⟨3⟩ = Path.bounded ∧
    next_diff scenario_B_after_3 ⟨1⟩ = -4 ∧ window_bound scenario_B_after_3 = 3 ∧
    path_taken scenario_B_after_3 ⟨1⟩ = Path.fallback ∧
    timestamps (insert_record scenario_B_after_3 ⟨1⟩).sorted_records = [1, 3, 5] := by
  decide

theorem to_int64_small (x : Nat) (h : x < I64_LIMIT) : to_int64 x = (x : Int) := by
  unfold to_int64 U64_MOD
  unfold I64_LIMIT at h
  have hx : x % 18446744073709551616 = x := Nat.mod_eq_of_lt (by omega)
  rw [hx]
  unfold I64_LIMIT
  rw [if_pos h]

theorem to_int64_sub_u64 (a b : Nat) (ha : a < I64_LIMIT) (hb : b < I64_LIMIT) :
    to_int64 (sub_u64 a b) = (a : Int) - (b : Int) := by
  unfold to_int64 sub_u64 U64_MOD I64_LIMIT
  unfold I64_LIMIT at ha hb
  split <;> omega

theorem abs_int64_neg (a b : Nat) (hb : b < I64_LIMIT) (hab : a < b) :
    abs_int64 ((a : Int) - (b : Int)) = (b : Int) - (a : Int) := by
  unfold abs_int64
  have h : ((a : Int) - (b : Int)).natAbs = b - a := by omega
  rw [h, to_int64_small _ (by omega)]
  omega

theorem next_diff_of_last (st : State) (r back : Record)
    (hlast : st.sorted_records.getLast? = some back) :
    next_diff st r = to_int64 (sub_u64 r.timestamp back.timestamp) := by
  unfold next_diff
  rw [hlast]

/-- C19 (no-wrap agreement): when the record and the last element have
timestamps below `2^63`, the value given to `diff_timestamp` is the exact
difference of the timestamps; the test `diff_timestamp >= 0`, hence the append
branch, holds exactly when the record is not older than the last element; and
on the other branches `abs(diff_timestamp)` is the last timestamp minus the
record's. -/
theorem C19_no_wrap_agreement (st : State) (r back : Record)
    (hlast : st.sorted_records.getLast? = some back)
    (hr : r.timestamp < I64_LIMIT) (hb : back.timestamp < I64_LIMIT) :
    next_diff st r = (r.timestamp : Int) - (back.timestamp : Int) ∧
    (0 ≤ next_diff st r ↔ back.timestamp ≤ r.timestamp) ∧
    (path_taken st r = Path.append ↔ back.timestamp ≤ r.timestamp) ∧
    (path_taken st r ≠ Path.append →
      abs_int64 (next_diff st r) = (back.timestamp : Int) - (r.timestamp : Int)) := by
  have hd : next_diff st r = (r.timestamp : Int) - (back.timestamp : Int) := by
    rw [next_diff_of_last st r back hlast, to_int64_sub_u64 _ _ hr hb]
  have hiff : 0 ≤ next_diff st r ↔ back.timestamp ≤ r.timestamp := by
    rw [hd]; omega
  refine ⟨hd, hiff, (path_taken_append_iff st r).trans hiff, fun hp => ?_⟩
  have hlt : r.timestamp < back.timestamp := by
    by_contra hcon
    exact hp ((path_taken_append_iff st r).2 (hiff.2 (by omega)))
  rw [hd, abs_int64_neg _ _ hb hlt]

/-- Witness of C19: the merged sequence `[10, 20, 30]` and the record `5`. -/
theorem C19_no_wrap_agreement_witness :
    next_diff gate_state ⟨5⟩ = ((5 : Nat) : Int) - ((30 : Nat) : Int) :=
  (C19_no_wrap_agreement gate_state ⟨5⟩ ⟨30⟩ (by decide) (by decide) (by decide)).1

/-! ## Sortedness of one step -/

theorem is_sorted_append_left (a b : List Record) (h : is_sorted (a ++ b)) : is_sorted a := by
  unfold is_sorted List.Sorted timestamps at h ⊢
  rw [List.map_append, List.pairwise_append] at h
  exact h.1

theorem is_sorted_sublist (a b : List Record) (hab : a.Sublist b) (h : is_sorted b) :
    is_sorted a := by
  unfold is_sorted List.Sorted timestamps at h ⊢
  exact List.Pairwise.sublist (hab.map _) h

theorem last_le_of_sorted_concat (S : List Record) (r back : Record)
    (hlast : S.getLast? = some back) (hs : is_sorted (S ++ [r])) :
    back.timestamp ≤ r.timestamp := by
  obtain ⟨ys, rfl⟩ := List.getLast?_eq_some_iff.1 hlast
  unfold is_sorted List.Sorted timestamps at hs
  rw [List.map_append, List.pairwise_append] at hs
  exact hs.2.2 back.timestamp (by simp) r.timestamp (by simp)

theorem path_append_of_sorted_concat (st : State) (r : Record)
    (hs : is_sorted (st.sorted_records ++ [r]))
    (hb : ∀ x ∈ st.sorted_records ++ [r], x.timestamp < I64_LIMIT)
    (hd : st.sorted_records = [] → 0 ≤ st.diff_timestamp) :
    path_taken st r = Path.append := by
  rw [path_taken_append_iff]
  cases hlast : st.sorted_records.getLast? with
  | none =>
    have hnil : st.sorted_records = [] := List.getLast?_eq_none_iff.1 hlast
    rw [next_diff_of_nil st r hnil]
    exact hd hnil
  | some back =>
    have hmem : back ∈ st.sorted_records := List.mem_of_getLast?_eq_some hlast
    rw [next_diff_of_last st r back hlast,
      to_int64_sub_u64 _ _ (hb r (by simp)) (hb back (by simp [hmem]))]
    have := last_le_of_sorted_concat _ r back hlast hs
    omega

theorem insert_record_of_append (st : State) (r : Record)
    (hp : path_taken st r = Path.append) :
    (insert_record st r).sorted_records = st.sorted_records ++ [r] ∧
    (insert_record st r).max_distance = st.max_distance := by
  rw [insert_record_eq, if_pos hp]
  exact ⟨rfl, rfl⟩

theorem foldl_insert_in_order (l : List Record) :
    ∀ st : State, is_sorted (st.sorted_records ++ l) →
      (∀ x ∈ st.sorted_records ++ l, x.timestamp < I64_LIMIT) →
      (st.sorted_records = [] → 0 ≤ st.diff_timestamp) →
      (l.foldl insert_record st).sorted_records = st.sorted_records ++ l ∧
      (l.foldl insert_record st).max_distance = st.max_distance := by
  induction l with
  | nil => intro st _ _ _; simp
  | cons r l ih =>
    intro st hs hb hd
    have hassoc : st.sorted_records ++ r :: l = (st.sorted_records ++ [r]) ++ l := by simp
    have hp : path_taken st r = Path.append := by
      apply path_append_of_sorted_concat st r
      · exact is_sorted_append_left _ l (hassoc ▸ hs)
      · intro x hx
        exact hb x (by rw [hassoc]; exact List.mem_append_left l hx)
      · exact hd
    obtain ⟨h1, h2⟩ := insert_record_of_append st r hp
    rw [List.foldl_cons]
    have := ih (insert_record st r) (by rw [h1, ← hassoc]; exact hs)
      (by rw [h1, ← hassoc]; exact hb)
      (by rw [h1]; intro h; simp at h)
    rw [this.1, this.2, h1, h2, hassoc]
    exact ⟨rfl, rfl⟩

/-- C20 (in-order pass-through): when the round-major order of the sources is
non-decreasing and its timestamps are below `2^63`, the engine ends with the
merged sequence equal to that order and `max_distance = 1`, and every insertion
of the run takes the append branch. -/
theorem C20_in_order_pass_through (sources : List (List Record))
    (hs : is_sorted (arrival sources))
    (hb : ∀ r ∈ arrival sources, r.timestamp < I64_LIMIT) :
    (∃ fuel out, engine fuel sources = some out) ∧
    (∀ fuel out, engine fuel sources = some out →
      out.1.sorted_records = arrival sources ∧ out.1.max_distance = 1) ∧
    (∀ k (h : k < (arrival sources).length),
      path_taken (after_insertions sources k) (arrival sources)[k] = Path.append) := by
  refine ⟨⟨max_len sources + 1, (final sources, pulls sources), by simp [engine_eq]⟩, ?_, ?_⟩
  · intro fuel out h
    rw [engine_eq] at h
    split at h
    · cases h
      have := foldl_insert_in_order (arrival sources) (initial sources)
        (by simpa [initial] using hs) (by simpa [initial] using hb)
        (fun _ => Int.le_refl 0)
      exact ⟨this.1, this.2⟩
    · cases h
  · intro k h
    have htake : is_sorted ((arrival sources).take k) :=
      is_sorted_sublist _ _ (List.take_sublist k _) hs
    have hk := foldl_insert_in_order ((arrival sources).take k) (initial sources)
      (by simpa [initial] using htake)
      (by
        intro x hx
        have hx2 : x ∈ (arrival sources).take k := by simpa [initial] using hx
        exact hb x (List.mem_of_mem_take hx2))
      (fun _ => Int.le_refl 0)
    have hS : (after_insertions sources k).sorted_records = (arrival sources).take k := by
      have := hk.1
      simpa [initial, after_insertions] using this
    have hsucc : (arrival sources).take k ++ [(arrival sources)[k]] =
        (arrival sources).take (k + 1) := by
      rw [List.take_succ, List.getElem?_eq_getElem h]
      rfl
    apply path_append_of_sorted_concat
    · rw [hS, hsucc]
      exact is_sorted_sublist _ _ (List.take_sublist _ _) hs
    · intro x hx
      rw [hS, hsucc] at hx
      exact hb x (List.mem_of_mem_take hx)
    · intro hnil
      rw [(reachable_inv _ (after_insertions_reachable sources k)).2.2 hnil]

/-- Witness of C20: the sources `[1, 4]` and `[2, 5]`, whose round-major order is
`1, 2, 4, 5`. -/
theorem C20_in_order_pass_through_witness :
    is_sorted (arrival in_order_sources) ∧
    (final in_order_sources).sorted_records = arrival in_order_sources ∧
    (final in_order_sources).max_distance = 1 :=
  ⟨by decide,
   (C20_in_order_pass_through in_order_sources (by decide) (by decide)).2.1 3
     (final in_order_sources, pulls in_order_sources) (by rw [engine_eq]; rfl)⟩

theorem deref_last (S : List Record) (back : Record) (hlast : S.getLast? = some back) :
    0 < S.length ∧ deref S (S.length - 1) = back := by
  have hne : S ≠ [] := by
    intro h; rw [h] at hlast; cases hlast
  have hpos : 0 < S.length := List.length_pos_of_ne_nil hne
  refine ⟨hpos, ?_⟩
  rw [List.getLast?_eq_getElem?, List.getElem?_eq_getElem (by omega)] at hlast
  rw [deref_eq S _ (by omega)]
  exact Option.some.inj hlast

/-- The quantities of the insertion step when nothing wraps and the record is
older than the last element. -/
theorem search_facts (st : State) (r back : Record) (hs : is_sorted st.sorted_records)
    (hlast : st.sorted_records.getLast? = some back) (h1 : 1 ≤ st.max_distance)
    (hb : back.timestamp < I64_LIMIT) (hlt : r.timestamp < back.timestamp) :
    next_diff st r = (r.timestamp : Int) - (back.timestamp : Int) ∧
    abs_int64 (next_diff st r) = (back.timestamp : Int) - (r.timestamp : Int) ∧
    window_bound st = ((deref st.sorted_records (window_start st)).timestamp : Int) ∧
    0 < st.sorted_records.length ∧
    deref st.sorted_records (st.sorted_records.length - 1) = back := by
  obtain ⟨hpos, hback⟩ := deref_last _ back hlast
  have hd : next_diff st r = (r.timestamp : Int) - (back.timestamp : Int) := by
    rw [next_diff_of_last st r back hlast, to_int64_sub_u64 _ _ (by omega) hb]
  have hws : (deref st.sorted_records (window_start st)).timestamp ≤ back.timestamp := by
    have := sorted_deref _ hs (window_start st) (st.sorted_records.length - 1)
      (by unfold window_start; omega) (by omega)
    rwa [hback] at this
  refine ⟨hd, ?_, ?_, hpos, hback⟩
  · rw [hd, abs_int64_neg _ _ hb hlt]
  · unfold window_bound
    rw [to_int64_small _ (by omega)]

/-- One insertion step keeps the vector non-decreasing when nothing wraps and,
on the `upper_bound` branch, every element before the window is at most the
record. -/
theorem insert_record_sorted (st : State) (r : Record) (hs : is_sorted st.sorted_records)
    (hb : ∀ x ∈ st.sorted_records, x.timestamp < I64_LIMIT) (hr : r.timestamp < I64_LIMIT)
    (hw : path_taken st r = Path.bounded →
      ∀ i, i < window_start st → (deref st.sorted_records i).timestamp ≤ r.timestamp) :
    is_sorted (insert_record st r).sorted_records := by
  rw [insert_record_sorted_records]
  cases hp : path_taken st r with
  | append =>
    have hi : insertion_index st r = st.sorted_records.length := by
      unfold insertion_index; rw [hp]
    rw [hi]
    apply vector_insert_sorted _ _ _ hs
    · intro i _ hi2
      cases hlast : st.sorted_records.getLast? with
      | none =>
        have hnil : st.sorted_records = [] := List.getLast?_eq_none_iff.1 hlast
        rw [hnil] at hi2
        simp at hi2
      | some back =>
        obtain ⟨hpos, hback⟩ := deref_last _ back hlast
        have hmem : back ∈ st.sorted_records := List.mem_of_getLast?_eq_some hlast
        have hd := (path_taken_append_iff st r).1 hp
        rw [next_diff_of_last st r back hlast, to_int64_sub_u64 _ _ hr (hb back hmem)] at hd
        have := sorted_deref _ hs i (st.sorted_records.length - 1) (by omega) (by omega)
        rw [hback] at this
        omega
    · intro i h1 h2; omega
  | bounded =>
    have hi : insertion_index st r =
        upper_bound st.sorted_records (window_start st) st.sorted_records.length r := by
      unfold insertion_index; rw [hp]
    rw [hi]
    obtain ⟨_, _, hlo, hhi⟩ := upper_bound_sorted _ (window_start st) r hs (window_start_le st)
    apply vector_insert_sorted _ _ _ hs
    · intro i h1 _
      by_cases hiw : i < window_start st
      · exact hw hp i hiw
      · exact hlo i (by omega) h1
    · intro i h1 h2
      exact Nat.le_of_lt (hhi i h1 h2)
  | fallback =>
    have hi : insertion_index st r =
        lower_bound st.sorted_records 0 st.sorted_records.length r := by
      unfold insertion_index; rw [hp]
    rw [hi]
    obtain ⟨_, hlo, hhi⟩ := lower_bound_sorted _ r hs
    apply vector_insert_sorted _ _ _ hs
    · intro i h1 _
      exact Nat.le_of_lt (hlo i h1)
    · exact hhi

/-- C12 (single-step preservation), evaluated where it fails: the merged
sequence `[10,20,30]` is non-decreasing, `max_distance = 1` is in range, all
timestamps are far below `2^63`; for the record `5` the difference is `-25`, the
bound is `30`, the gate passes and the window is `[2, 3)`; the elements `10` and
`20` before the window are greater than `5`; the step yields `[10,20,5,30]`,
which is not non-decreasing. The state is the one the run on `[10,20,30,5]`
reaches after three insertions. -/
theorem C12_gate_admits_misplaced_record :
    set_readers (after_insertions late_record 3) [] = gate_state ∧
    is_sorted gate_state.sorted_records ∧
    1 ≤ gate_state.max_distance ∧
    gate_state.max_distance ≤ gate_state.sorted_records.length ∧
    next_diff gate_state ⟨5⟩ = -25 ∧ window_bound gate_state = 30 ∧
    path_taken gate_state ⟨5⟩ = Path.bounded ∧
    window_start gate_state = 2 ∧ insertion_index gate_state ⟨5⟩ = 2 ∧
    (⟨5⟩ : Record).timestamp < (deref gate_state.sorted_records 0).timestamp ∧
    (⟨5⟩ : Record).timestamp < (deref gate_state.sorted_records 1).timestamp ∧
    timestamps (insert_record gate_state ⟨5⟩).sorted_records = [10, 20, 5, 30] ∧
    ¬ is_sorted (insert_record gate_state ⟨5⟩).sorted_records := by
  decide

/-- C13 (bounded-search placement). Where it fails: with the merged sequence
`[2^63 + 5]`, `max_distance = 1` and the record `1`, the record is older than
the last element and the distance `2^63 + 4` is at most the bound `2^63 + 5`, so
the claimed index is `0`; the step appends at index `1`. Where it holds: when
the last timestamp is below `2^63`, the step takes the `upper_bound` branch and
places the record at the smallest index of the window whose element is greater
than the record, after every window element with an equal timestamp. -/
theorem C13_bounded_search_placement :
    (is_sorted wrap_state.sorted_records ∧
      wrap_state.sorted_records.getLast? = some ⟨9223372036854775813⟩ ∧
      1 ≤ wrap_state.max_distance ∧
      wrap_state.max_distance ≤ wrap_state.sorted_records.length ∧
      (⟨1⟩ : Record).timestamp < 9223372036854775813 ∧
      9223372036854775813 - (⟨1⟩ : Record).timestamp ≤
        (deref wrap_state.sorted_records (window_start wrap_state)).timestamp ∧
      window_start wrap_state = 0 ∧
      (⟨1⟩ : Record).timestamp < (deref wrap_state.sorted_records 0).timestamp ∧
      path_taken wrap_state ⟨1⟩ = Path.append ∧
      insertion_index wrap_state ⟨1⟩ = 1 ∧
      timestamps (insert_record wrap_state ⟨1⟩).sorted_records = [9223372036854775813, 1]) ∧
    ∀ (st : State) (r back : Record),
      is_sorted st.sorted_records → st.sorted_records.getLast? = some back →
      1 ≤ st.max_distance → st.max_distance ≤ st.sorted_records.length →
      back.timestamp < I64_LIMIT → r.timestamp < back.timestamp →
      back.timestamp - r.timestamp ≤
        (deref st.sorted_records (window_start st)).timestamp →
      path_taken st r = Path.bounded ∧
      window_start st ≤ insertion_index st r ∧
      insertion_index st r < st.sorted_records.length ∧
      r.timestamp < (deref st.sorted_records (insertion_index st r)).timestamp ∧
      (∀ i, window_start st ≤ i → i < insertion_index st r →
        (deref st.sorted_records i).timestamp ≤ r.timestamp) ∧
      (∀ i, window_start st ≤ i → i < st.sorted_records.length →
        (deref st.sorted_records i).timestamp = r.timestamp → i < insertion_index st r) ∧
      (insert_record st r).sorted_records =
        st.sorted_records.take (insertion_index st r) ++
          r :: st.sorted_records.drop (insertion_index st r) := by
  refine ⟨by decide, ?_⟩
  intro st r back hs hlast h1 h2 hb hlt hgate
  obtain ⟨hd, habs, hbound, hpos, hback⟩ := search_facts st r back hs hlast h1 hb hlt
  have hp : path_taken st r = Path.bounded := by
    rw [path_taken_bounded_iff, habs, hbound, hd]
    omega
  have hi : insertion_index st r =
      upper_bound st.sorted_records (window_start st) st.sorted_records.length r := by
    unfold insertion_index; rw [hp]
  obtain ⟨hge, hle, hlo, hhi⟩ :=
    upper_bound_sorted _ (window_start st) r hs (window_start_le st)
  rw [← hi] at hge hle hlo hhi
  have hws : window_start st ≤ st.sorted_records.length - 1 := by
    unfold window_start; omega
  have hidx : insertion_index st r < st.sorted_records.length := by
    by_contra hcon
    have := hlo (st.sorted_records.length - 1) hws (by omega)
    rw [hback] at this
    omega
  refine ⟨hp, hge, hidx, hhi _ (Nat.le_refl _) hidx, hlo, ?_, ?_⟩
  · intro i _ hi2 heq
    by_contra hcon
    have := hhi i (by omega) hi2
    omega
  · rw [insert_record_sorted_records]
    rfl

/-- Witness of C13: the merged sequence `[10,15,20,30,40]` with `max_distance = 2`
and the record `25`, as in scenario A. -/
theorem C13_bounded_search_placement_witness :
    path_taken window_state ⟨25⟩ = Path.bounded ∧
    window_start window_state ≤ insertion_index window_state ⟨25⟩ :=
  ⟨(C13_bounded_search_placement.2 window_state ⟨25⟩ ⟨40⟩ (by decide) (by decide)
      (by decide) (by decide) (by decide) (by decide) (by decide)).1,
   (C13_bounded_search_placement.2 window_state ⟨25⟩ ⟨40⟩ (by decide) (by decide)
      (by decide) (by decide) (by decide) (by decide) (by decide)).2.1⟩

/-- C14 (fallback-search placement). Where it fails: the run on the source
`[5, 1, 2^62, 2^63 + 5, 2]` reaches the merged sequence `[1, 5, 2^62, 2^63 + 5]`
with `max_distance = 2`; the record `2` is older than the last element and the
distance `2^63 + 3` exceeds the bound `2^62`, so the claimed index is `1`; the
step appends at index `4` and the result is not non-decreasing. Where it holds:
when the last timestamp is below `2^63`, the step takes the `lower_bound` branch
and places the record at the smallest index whose element is not smaller than
the record, before every element with an equal timestamp, and the result is
non-decreasing. -/
theorem C14_fallback_search_placement :
    (timestamps far_state.sorted_records =
        [1, 5, 4611686018427387904, 9223372036854775813] ∧
      far_state.max_distance = 2 ∧
      is_sorted far_state.sorted_records ∧
      (⟨2⟩ : Record).timestamp < 9223372036854775813 ∧
      (deref far_state.sorted_records (window_start far_state)).timestamp <
        9223372036854775813 - (⟨2⟩ : Record).timestamp ∧
      (deref far_state.sorted_records 0).timestamp < (⟨2⟩ : Record).timestamp ∧
      (⟨2⟩ : Record).timestamp ≤ (deref far_state.sorted_records 1).timestamp ∧
      path_taken far_state ⟨2⟩ = Path.append ∧
      insertion_index far_state ⟨2⟩ = 4 ∧
      timestamps (insert_record far_state ⟨2⟩).sorted_records =
        [1, 5, 4611686018427387904, 9223372036854775813, 2] ∧
      ¬ is_sorted (insert_record far_state ⟨2⟩).sorted_records ∧
      (final far_source).sorted_records = (insert_record far_state ⟨2⟩).sorted_records) ∧
    ∀ (st : State) (r back : Record),
      is_sorted st.sorted_records → st.sorted_records.getLast? = some back →
      1 ≤ st.max_distance → st.max_distance ≤ st.sorted_records.length →
      back.timestamp < I64_LIMIT → r.timestamp < back.timestamp →
      (deref st.sorted_records (window_start st)).timestamp <
        back.timestamp - r.timestamp →
      path_taken st r = Path.fallback ∧
      insertion_index st r < st.sorted_records.length ∧
      r.timestamp ≤ (deref st.sorted_records (insertion_index st r)).timestamp ∧
      (∀ i, i < insertion_index st r →
        (deref st.sorted_records i).timestamp < r.timestamp) ∧
      (∀ i, i < st.sorted_records.length →
        (deref st.sorted_records i).timestamp = r.timestamp → insertion_index st r ≤ i) ∧
      (insert_record st r).sorted_records =
        st.sorted_records.take (insertion_index st r) ++
          r :: st.sorted_records.drop (insertion_index st r) ∧
      is_sorted (insert_record st r).sorted_records := by
  refine ⟨by decide, ?_⟩
  intro st r back hs hlast h1 h2 hb hlt hgate
  obtain ⟨hd, habs, hbound, hpos, hback⟩ := search_facts st r back hs hlast h1 hb hlt
  have hna : path_taken st r ≠ Path.append := by
    rw [Ne, path_taken_append_iff, hd]; omega
  have hnb : path_taken st r ≠ Path.bounded := by
    rw [Ne, path_taken_bounded_iff, habs, hbound, hd]; omega
  have hp : path_taken st r = Path.fallback := by
    cases hc : path_taken st r with
    | append => exact absurd hc hna
    | bounded => exact absurd hc hnb
    | fallback => rfl
  have hi : insertion_index st r =
      lower_bound st.sorted_records 0 st.sorted_records.length r := by
    unfold insertion_index; rw [hp]
  obtain ⟨hle, hlo, hhi⟩ := lower_bound_sorted _ r hs
  rw [← hi] at hle hlo hhi
  have hidx : insertion_index st r < st.sorted_records.length := by
    by_contra hcon
    have := hlo (st.sorted_records.length - 1) (by omega)
    rw [hback] at this
    omega
  refine ⟨hp, hidx, hhi _ (Nat.le_refl _) hidx, hlo, ?_, ?_, ?_⟩
  · intro i _ heq
    by_contra hcon
    have := hlo i (by omega)
    omega
  · rw [insert_record_sorted_records]
    rfl
  · rw [insert_record_sorted_records]
    exact vector_insert_sorted _ _ _ hs (fun i h3 _ => Nat.le_of_lt (hlo i h3)) hhi

/-- Witness of C14: the merged sequence `[3, 5]` with `max_distance = 2` and the
record `1`, as in scenario B. -/
theorem C14_fallback_search_placement_witness :
    path_taken search_state ⟨1⟩ = Path.fallback ∧
    is_sorted (insert_record search_state ⟨1⟩).sorted_records :=
  ⟨(C14_fallback_search_placement.2 search_state ⟨1⟩ ⟨5⟩ (by decide) (by decide)
      (by decide) (by decide) (by decide) (by decide) (by decide)).1,
   (C14_fallback_search_placement.2 search_state ⟨1⟩ ⟨5⟩ (by decide) (by decide)
      (by decide) (by decide) (by decide) (by decide) (by decide)).2.2.2.2.2.2⟩

end RecordStream
